import Mathlib

/-!
Verification development for the moklog build pipeline.

Byte payloads are modelled as `List Nat` (each element a byte value, `< 256`
where a theorem needs it), strings and file names as `List Char`, and 64-bit
machine integers as `Nat` taken modulo `M = 2 ^ 64` wherever the Rust code
wraps.  Fallible operations return `Option` or `Except`.
-/

/-- 2 ^ 64, the wrap-around modulus of Rust u64 arithmetic. -/
def M : Nat := 18446744073709551616

/-- Multiplication constant of seahash's diffusion function. -/
def K : Nat := 0x6eed0e9da4d94a4f

/-- The xor-shift step of seahash's diffusion: `x ^= (x >> 32) >> (x >> 60)`. -/
def seaMix (z : Nat) : Nat := z ^^^ ((z >>> 32) >>> (z >>> 60))

/-- Diffusion function of the seahash crate (the hash used by
`hash_file` in src/injest/static_file.rs): wrapping multiply by `K`,
a data-dependent xor-shift, and a second wrapping multiply. -/
def diffuse (x : Nat) : Nat :=
  K * seaMix (K * x % M) % M

/-- Little-endian integer of a byte list, as seahash's `read_int`
reads a (at most 8 byte) chunk. -/
def readIntLE : List Nat → Nat
  | [] => 0
  | b :: bs => b + 256 * readIntLE bs

/-- Hash state of seahash: four 64-bit lanes. -/
structure SeaState where
  a : Nat
  b : Nat
  c : Nat
  d : Nat
deriving DecidableEq

/-- seahash `State::push`: xor the chunk into lane `a`, diffuse, rotate lanes. -/
def seaPush (s : SeaState) (x : Nat) : SeaState :=
  ⟨s.b, s.c, s.d, diffuse (s.a ^^^ x)⟩

/-- seahash `State::finalize`: xor the four lanes and the total length
(cast to u64) together and diffuse. -/
def seaFinalize (s : SeaState) (total : Nat) : Nat :=
  diffuse (s.a ^^^ s.b ^^^ s.c ^^^ s.d ^^^ (total % M))

/-- Fuel-driven splitting of a byte list into the little-endian values of its
8-byte chunks (the final chunk may be shorter); fuel at least the list length
makes it total. -/
def chunks8Fuel : Nat → List Nat → List Nat
  | _, [] => []
  | 0, _ :: _ => []
  | n + 1, l => readIntLE (l.take 8) :: chunks8Fuel n (l.drop 8)

/-- The 8-byte chunk values of a byte list, as seahash's main loop iterates
over `buf.chunks(8)`. -/
def chunks8 (l : List Nat) : List Nat := chunks8Fuel l.length l

/-- First seed of the unseeded `seahash::hash`. -/
def seedA : Nat := 0x16f11fe89b0d677c

/-- Second seed of the unseeded `seahash::hash`. -/
def seedB : Nat := 0xb480a793d8e6c86c

/-- Third seed of the unseeded `seahash::hash`. -/
def seedC : Nat := 0x6fe2e5aaf078ebc9

/-- Fourth seed of the unseeded `seahash::hash`. -/
def seedD : Nat := 0x14f994a4c5259381

/-- Model of `seahash::hash` (reference semantics of the external seahash
crate): push every 8-byte little-endian chunk through the lane rotation and
finalize with the total byte length. -/
def seahash (bytes : List Nat) : Nat :=
  seaFinalize ((chunks8 bytes).foldl seaPush ⟨seedA, seedB, seedC, seedD⟩) bytes.length

/-- `hash_file` of src/injest/static_file.rs: `seahash::hash(file)`. -/
def hash_file (file : List Nat) : Nat := seahash file

/-- Standard base64 alphabet used by `base64::encode` / `base64::decode`
(the base64 crate with the default standard, padded configuration). -/
def b64chars : List Char :=
  ['A','B','C','D','E','F','G','H','I','J','K','L','M','N','O','P','Q','R','S','T','U','V','W','X','Y','Z',
   'a','b','c','d','e','f','g','h','i','j','k','l','m','n','o','p','q','r','s','t','u','v','w','x','y','z',
   '0','1','2','3','4','5','6','7','8','9','+','/']

/-- Alphabet character of a sextet value. -/
def b64char (n : Nat) : Char := b64chars.getD n 'A'

/-- Sextet value of an alphabet character, `none` for a character outside the
alphabet (in particular for the padding character). -/
def b64index (c : Char) : Option Nat :=
  if b64chars.indexOf c < 64 then some (b64chars.indexOf c) else none

/-- Model of `base64::encode` (standard alphabet, padded): encode byte triples
into four sextet characters, padding a final group of one or two bytes. -/
def base64encode : List Nat → List Char
  | [] => []
  | [b0] => [b64char (b0 / 4), b64char (b0 % 4 * 16), '=', '=']
  | [b0, b1] => [b64char (b0 / 4), b64char (b0 % 4 * 16 + b1 / 16), b64char (b1 % 16 * 4), '=']
  | b0 :: b1 :: b2 :: rest =>
      b64char (b0 / 4) :: b64char (b0 % 4 * 16 + b1 / 16) :: b64char (b1 % 16 * 4 + b2 / 64) ::
        b64char (b2 % 64) :: base64encode rest

/-- Model of `base64::decode` (standard alphabet, padded, canonical trailing
bits): decode groups of four characters, the last group possibly padded. -/
def base64decode : List Char → Option (List Nat)
  | [] => some []
  | c0 :: c1 :: c2 :: c3 :: rest =>
    (match b64index c0, b64index c1 with
    | some s0, some s1 =>
      if c2 = '=' then
        if c3 = '=' ∧ rest = [] then
          (if s1 % 16 = 0 then some [s0 * 4 + s1 / 16] else none)
        else none
      else
        (match b64index c2 with
        | some s2 =>
          if c3 = '=' then
            if rest = [] then
              (if s2 % 4 = 0 then some [s0 * 4 + s1 / 16, s1 % 16 * 16 + s2 / 4] else none)
            else none
          else
            (match b64index c3, base64decode rest with
            | some s3, some bs =>
                some ((s0 * 4 + s1 / 16) :: (s1 % 16 * 16 + s2 / 4) :: (s2 % 4 * 64 + s3) :: bs)
            | _, _ => none)
        | none => none)
    | _, _ => none)
  | _ => none

/-- The little-endian bytes of a u64, as `u64::to_le_bytes`. -/
def u64ToLeBytes (h : Nat) : List Nat :=
  [h % 256, h / 256 % 256, h / 65536 % 256, h / 16777216 % 256,
   h / 4294967296 % 256, h / 1099511627776 % 256,
   h / 281474976710656 % 256, h / 72057594037927936 % 256]

/-- Rust `str::split_once(".")`: split a string at the first dot, `none` when
no dot occurs. -/
def splitOnceDot : List Char → Option (List Char × List Char)
  | [] => none
  | c :: rest =>
    if c = '.' then some ([], rest)
    else
      match splitOnceDot rest with
      | some (l, r) => some (c :: l, r)
      | none => none

/-- `new_filename` of src/injest/static_file.rs: hash the payload, base64 the
hash's little-endian bytes, and splice it between the stem (before the first
dot of the file name) and the extension (after it).  The `file_name()?` /
`to_str()?` path steps are the identity here because the input is already the
final UTF-8 file name component. -/
def new_filename (file : List Nat) (filename : List Char) : Option (Nat × List Char) :=
  match splitOnceDot filename with
  | some (fname, ext) =>
      some (hash_file file,
        fname ++ '.' :: (base64encode (u64ToLeBytes (hash_file file)) ++ '.' :: ext))
  | none => none

/-- `parse_filename` of src/injest/static_file.rs: drop the stem before the
first dot, base64-decode what stands before the next dot, and read the 8
decoded bytes back as a little-endian u64.  The source's `format!()` (which is
ill-formed Rust) is modelled as the empty string, and `data.into()` as the
conversion requiring exactly 8 decoded bytes. -/
def parse_filename (filename : List Char) : Option (Nat × List Char) :=
  match splitOnceDot filename with
  | some (_, hashAndExt) =>
    match splitOnceDot hashAndExt with
    | some (hashStr, _) =>
      match base64decode hashStr with
      | some data => if data.length = 8 then some (readIntLE data, []) else none
      | none => none
    | none => none
  | none => none

/-- One node of the site content tree built by `build_site`
(src/injest/build.rs): a directory with the flag of whether `data`
(the node's `LeafPathData`, set by an index document) is present, and the
child directories. -/
inductive FsNode where
  | mk (hasData : Bool) (children : List FsNode)

/-- Whether the node's `LeafPath.data` is present. -/
def FsNode.hasData : FsNode → Bool
  | FsNode.mk d _ => d

/-- The node's child list. -/
def FsNode.children : FsNode → List FsNode
  | FsNode.mk _ cs => cs

mutual

/-- One iteration of the prune loop of `build_site` (build.rs:487-504): the
post-order scan lists every node whose data is absent, and each listed
non-root node is removed with `RemoveBehavior::DropChildren`, so every
subtree rooted at a dataless non-root node disappears while the root itself
is always kept. -/
def pruneStep : FsNode → FsNode
  | FsNode.mk d cs => FsNode.mk d (pruneChildren cs)

/-- Child part of `pruneStep`: a dataless child is dropped together with its
whole subtree; a child with data is kept and pruned recursively. -/
def pruneChildren : List FsNode → List FsNode
  | [] => []
  | c :: cs => if c.hasData then pruneStep c :: pruneChildren cs else pruneChildren cs

end

mutual

/-- Whether the post-order scan of the prune loop finds any node (the root
included) whose data is absent — the loop's `bad_paths` is nonempty. -/
def hasBadNode : FsNode → Bool
  | FsNode.mk d cs => !d || hasBadList cs

/-- `hasBadNode` over a child list. -/
def hasBadList : List FsNode → Bool
  | [] => false
  | c :: cs => hasBadNode c || hasBadList cs

end

/-- The prune loop of `build_site` (build.rs:487-504) with explicit fuel:
scan for dataless nodes, stop when none is found, otherwise remove (the
non-root ones) and rescan.  `none` means the fuel ran out, i.e. the loop has
not terminated within that many iterations. -/
def pruneLoop : Nat → FsNode → Option FsNode
  | 0, _ => none
  | n + 1, t => if hasBadNode t then pruneLoop n (pruneStep t) else some t

/-- `CategoryMeta` of src/injest/generate.rs. -/
structure CategoryMetaM where
  title : String
  pinned_posts : List String
deriving DecidableEq

/-- The part of `ConfigMeta` (build.rs:65-73) that the second tree pass
reads: the optional category configuration.  A front matter carrying an
unknown `subcategory` table parses with `category = none`, since serde
ignores unknown keys. -/
structure ConfigMetaM where
  category : Option CategoryMetaM
deriving DecidableEq

/-- One directory entry reaching the second (category) pass of `build_site`
(build.rs:506-554).  `nodeData` models the chain of lookups on the entry:
`none` when `fs_path_store` has no node for the path, `some none` when the
node's data is absent or the payload has no `===` splitter, and
`some (some r)` for the outcome `r` of `toml::from_str::<ConfigMeta>` on the
front-matter prefix (the external TOML parser is treated as an oracle). -/
structure Pass2Entry where
  name : List Char
  depth : Nat
  isDir : Bool
  nodeData : Option (Option (Except String ConfigMetaM))

/-- Reserved top-level names of build.rs:255. -/
def RESERVED_NAMES : List (List Char) :=
  ["template", "files", "static", "admin", "user", "me", "api", "stat", "error"].map
    String.toList

/-- Reserved characters of build.rs:257-261. -/
def RESERVED_CHARS : List Char :=
  ['\x7b', '\x7d', '|', '\\', '^', '[', ']', '\x60',
   ';', '/', '?', ':', '@', '&', '=', '+', '$', ',',
   ' ', '<', '>', '#', '%', '\x22', '\x27']

/-- The `filter_entry` predicate installed on the walker at build.rs:284-288:
an entry is yielded only when the predicate is true, and the predicate is
`RESERVED_NAMES.contains(file_name)` — so only entries whose name is exactly
a reserved name are ever visited. -/
def walkFilterKeep (name : List Char) : Bool := RESERVED_NAMES.contains name

/-- `HashMap::insert` on an association list: replace any previous binding of
the key and add the new one. -/
def insertReplace (m : List (List Char × CategoryMetaM)) (k : List Char) (v : CategoryMetaM) :
    List (List Char × CategoryMetaM) :=
  m.filter (fun p => p.1 != k) ++ [(k, v)]

/-- The body of one depth round of the second pass of `build_site`
(build.rs:506-554) over the entries the walker yields: skip entries failing
the walker's filter or that are not directories, skip store misses and
splitter-less or dataless nodes, abort the whole build on a front-matter
parse error (the `?` at build.rs:529), record a category config keyed by the
directory name when `depths == 1`, and — faithfully to the unfinished
else-branch at build.rs:538-546 — record nothing when `depths == 2`. -/
def pass2Round (depths : Nat) : List Pass2Entry → List (List Char × CategoryMetaM) →
    Except String (List (List Char × CategoryMetaM))
  | [], acc => Except.ok acc
  | e :: es, acc =>
    if walkFilterKeep e.name && e.isDir then
      match e.nodeData with
      | some (some (Except.error msg)) => Except.error msg
      | some (some (Except.ok cfg)) =>
        match cfg.category with
        | some c =>
          if depths = 1 then pass2Round depths es (insertReplace acc e.name c)
          else pass2Round depths es acc
        | none => pass2Round depths es acc
      | _ => pass2Round depths es acc
    else pass2Round depths es acc

/-- The second pass of `build_site` (build.rs:506-554): `for depths in 1..=2`
re-walk the tree with `max_depth(depths)` and run the round body.  The result
is the `site_categories` map; the source has no subcategory map at all. -/
def secondPass (entries : List Pass2Entry) :
    Except String (List (List Char × CategoryMetaM)) := do
  let r1 ← pass2Round 1 (entries.filter (fun e => decide (e.depth ≤ 1))) []
  pass2Round 2 (entries.filter (fun e => decide (e.depth ≤ 2))) r1

/-- ASCII letter test, as the language_tags crate's subtag grammar uses. -/
def isAsciiAlpha (c : Char) : Bool :=
  ('a' ≤ c && c ≤ 'z') || ('A' ≤ c && c ≤ 'Z')

/-- ASCII letter-or-digit test. -/
def isAsciiAlphanum (c : Char) : Bool :=
  isAsciiAlpha c || ('0' ≤ c && c ≤ '9')

/-- Split a name at the `-` separators, as the language_tags crate splits a
tag into subtags. -/
def splitDash : List Char → List (List Char)
  | [] => [[]]
  | c :: rest =>
    if c = '-' then [] :: splitDash rest
    else
      match splitDash rest with
      | [] => [[c]]
      | g :: gs => (c :: g) :: gs

/-- Modelled from the external language_tags crate: `LanguageTag::parse`
accepts a tag that is well-formed under RFC 5646, here restricted to the
ordinary subtag grammar (primary subtag of 2-8 ASCII letters, further
subtags of 1-8 ASCII letters or digits), which is what the directory names
considered here exercise. -/
def wellFormedLangTag (name : List Char) : Bool :=
  match splitDash name with
  | [] => false
  | first :: rest =>
    decide (2 ≤ first.length) && decide (first.length ≤ 8) && first.all isAsciiAlpha &&
      rest.all (fun sub =>
        decide (1 ≤ sub.length) && decide (sub.length ≤ 8) && sub.all isAsciiAlphanum)

/-- What `build_site` does with one directory entry of the content walk. -/
inductive DirOutcome where
  | skipped
  | fatalLangTag
  | fatalReserved
  | inserted
deriving DecidableEq

/-- The fate of a directory named `name` in the walk of `build_site`: the
walker's `filter_entry` (build.rs:284-288) drops every entry whose name is
not a reserved name; a yielded directory is then checked (build.rs:408-415)
against the language-tag grammar, the reserved names and the reserved
characters, each failure a fatal error for the whole build. -/
def dirStep (name : List Char) : DirOutcome :=
  if walkFilterKeep name = false then DirOutcome.skipped
  else if wellFormedLangTag name then DirOutcome.fatalLangTag
  else if RESERVED_NAMES.contains name || name.any (fun c => RESERVED_CHARS.contains c) then
    DirOutcome.fatalReserved
  else DirOutcome.inserted

/-- The `times_exec` update of a scripting hook (`RhaiFilter::filter`,
`RhaiTester::test`, `RhaiFunction::call`, `Shortcode::call`,
build.rs:81-152): the counter is loaded before the script call and
`fetch_add(1)` runs only after a successful call — the error path returns
early, leaving the counter unchanged. -/
def hookStep (times : Nat) (ok : Bool) : Nat :=
  if ok then times + 1 else times

/-- The sequence of counter values a hook's script observes over a run of
invocations (`true` = the scripted call succeeds, `false` = it errors):
each invocation observes the loaded value, then the counter advances by
`hookStep`.  The counter is a field of the one hook's registration record,
so the sequence is local to that named hook. -/
def observedSeq (times : Nat) : List Bool → List Nat
  | [] => []
  | ok :: rest => times :: observedSeq (hookStep times ok) rest

/-- The three-backtick fence opener of the table-of-contents filter
(src/injest.rs:341-369). -/
def fenceBackticks : List Char := ['\x60', '\x60', '\x60']

/-- The three-tilde fence opener of the table-of-contents filter. -/
def fenceTildes : List Char := ['~', '~', '~']

/-- The fence-aware line filter feeding table-of-contents generation in
`update_site_content` (src/injest.rs:341-369): while inside a fence every
line is dropped (a line starting with the open fence's tag closes it and is
itself dropped); outside a fence a line starting with three backticks or
three tildes opens a fence and is dropped, and any other line is kept as a
heading candidate. -/
def tocKeptLines (fence : Option (List Char)) : List (List Char) → List (List Char)
  | [] => []
  | line :: rest =>
    match fence with
    | some tag =>
      if tag.isPrefixOf line then tocKeptLines none rest else tocKeptLines (some tag) rest
    | none =>
      if fenceBackticks.isPrefixOf line then tocKeptLines (some fenceBackticks) rest
      else if fenceTildes.isPrefixOf line then tocKeptLines (some fenceTildes) rest
      else line :: tocKeptLines none rest

/-- The fence state left behind after the filter has processed the lines. -/
def tocFence (fence : Option (List Char)) : List (List Char) → Option (List Char)
  | [] => fence
  | line :: rest =>
    match fence with
    | some tag =>
      if tag.isPrefixOf line then tocFence none rest else tocFence (some tag) rest
    | none =>
      if fenceBackticks.isPrefixOf line then tocFence (some fenceBackticks) rest
      else if fenceTildes.isPrefixOf line then tocFence (some fenceTildes) rest
      else tocFence none rest

/-- Boundedness of the four seahash lanes by the u64 modulus. -/
def SeaBounded (s : SeaState) : Prop :=
  s.a < M ∧ s.b < M ∧ s.c < M ∧ s.d < M

/-- Two seahash states differing in exactly one lane. -/
def OneLane (s t : SeaState) : Prop :=
  (s.a ≠ t.a ∧ s.b = t.b ∧ s.c = t.c ∧ s.d = t.d) ∨
  (s.a = t.a ∧ s.b ≠ t.b ∧ s.c = t.c ∧ s.d = t.d) ∨
  (s.a = t.a ∧ s.b = t.b ∧ s.c ≠ t.c ∧ s.d = t.d) ∨
  (s.a = t.a ∧ s.b = t.b ∧ s.c = t.c ∧ s.d ≠ t.d)

theorem M_pos : 0 < M := by norm_num [M]

theorem M_eq_pow : M = 2 ^ 64 := by norm_num [M]

theorem shiftRight_xor_distrib (x y n : Nat) : (x ^^^ y) >>> n = (x >>> n) ^^^ (y >>> n) := by
  apply Nat.eq_of_testBit_eq
  intro i
  simp [Nat.testBit_shiftRight, Nat.testBit_xor]

theorem shiftRight_eq_zero_of_lt {x n : Nat} (h : x < 2 ^ n) : x >>> n = 0 := by
  rw [Nat.shiftRight_eq_div_pow]
  exact Nat.div_eq_of_lt h

theorem xor_lt_M {x y : Nat} (hx : x < M) (hy : y < M) : x ^^^ y < M := by
  rw [M_eq_pow] at hx hy ⊢
  exact Nat.xor_lt_two_pow hx hy

theorem xor_left_cancel {a x y : Nat} (h : a ^^^ x = a ^^^ y) : x = y := by
  have h2 := congrArg (fun z => a ^^^ z) h
  simpa [← Nat.xor_assoc, Nat.xor_self, Nat.zero_xor] using h2

theorem xor_right_cancel {a x y : Nat} (h : x ^^^ a = y ^^^ a) : x = y := by
  have h2 := congrArg (fun z => z ^^^ a) h
  simpa [Nat.xor_assoc, Nat.xor_self, Nat.xor_zero] using h2

theorem seaMix_shift (z : Nat) : seaMix z = z ^^^ (z >>> (32 + (z >>> 60))) := by
  rw [seaMix, Nat.shiftRight_add]

theorem seaMix_lt {z : Nat} (hz : z < M) : seaMix z < M := by
  apply xor_lt_M hz
  have h1 : (z >>> 32) >>> (z >>> 60) ≤ z := by
    rw [Nat.shiftRight_eq_div_pow, Nat.shiftRight_eq_div_pow]
    exact le_trans (Nat.div_le_self _ _) (Nat.div_le_self _ _)
  omega

theorem seaMix_invol {z : Nat} (hz : z < M) : seaMix (seaMix z) = z := by
  have hzp : z < 2 ^ 64 := by rw [← M_eq_pow]; exact hz
  have htlt : z >>> (32 + (z >>> 60)) < 2 ^ 32 := by
    rw [Nat.shiftRight_eq_div_pow]
    have h1 : z < 2 ^ (32 + (z >>> 60)) * 2 ^ 32 := by
      rw [← pow_add]
      exact lt_of_lt_of_le hzp (Nat.pow_le_pow_right (by norm_num) (by omega))
    exact Nat.div_lt_of_lt_mul h1
  have h60 : seaMix z >>> 60 = z >>> 60 := by
    rw [seaMix_shift, shiftRight_xor_distrib,
      shiftRight_eq_zero_of_lt (lt_of_lt_of_le htlt (Nat.pow_le_pow_right (by norm_num) (by norm_num))),
      Nat.xor_zero]
  have hkk : (z >>> (32 + (z >>> 60))) >>> (32 + (z >>> 60)) = 0 := by
    rw [← Nat.shiftRight_add]
    exact shiftRight_eq_zero_of_lt (lt_of_lt_of_le hzp (Nat.pow_le_pow_right (by norm_num) (by omega)))
  have hmk : seaMix z >>> (32 + (z >>> 60)) = z >>> (32 + (z >>> 60)) := by
    rw [seaMix_shift, shiftRight_xor_distrib, hkk, Nat.xor_zero]
  rw [seaMix_shift (seaMix z), h60, hmk, seaMix_shift z, Nat.xor_assoc, Nat.xor_self, Nat.xor_zero]

theorem seaMix_inj {z w : Nat} (hz : z < M) (hw : w < M) (h : seaMix z = seaMix w) : z = w := by
  rw [← seaMix_invol hz, h, seaMix_invol hw]

theorem coprime_M_K : Nat.Coprime M K := by
  rw [M_eq_pow]
  apply Nat.Coprime.pow_left
  rw [Nat.coprime_two_left, Nat.odd_iff]
  norm_num [K]

theorem mulK_mod_inj {x y : Nat} (hx : x < M) (hy : y < M) (h : K * x % M = K * y % M) : x = y := by
  have h2 : x ≡ y [MOD M] := Nat.ModEq.cancel_left_of_coprime coprime_M_K h
  unfold Nat.ModEq at h2
  rw [Nat.mod_eq_of_lt hx, Nat.mod_eq_of_lt hy] at h2
  exact h2

theorem diffuse_lt (x : Nat) : diffuse x < M := Nat.mod_lt _ M_pos

theorem diffuse_inj {x y : Nat} (hx : x < M) (hy : y < M) (h : diffuse x = diffuse y) : x = y := by
  unfold diffuse at h
  have h1 := mulK_mod_inj (seaMix_lt (Nat.mod_lt _ M_pos)) (seaMix_lt (Nat.mod_lt _ M_pos)) h
  have h2 := seaMix_inj (Nat.mod_lt _ M_pos) (Nat.mod_lt _ M_pos) h1
  exact mulK_mod_inj hx hy h2

theorem seaPush_bounded {s : SeaState} (x : Nat) (hs : SeaBounded s) : SeaBounded (seaPush s x) := by
  obtain ⟨_, hb, hc, hd⟩ := hs
  exact ⟨hb, hc, hd, diffuse_lt _⟩

theorem foldl_seaPush_bounded :
    ∀ (xs : List Nat) (s : SeaState), SeaBounded s → SeaBounded (xs.foldl seaPush s)
  | [], _, hs => hs
  | x :: xs, s, hs => foldl_seaPush_bounded xs (seaPush s x) (seaPush_bounded x hs)

theorem seaPush_oneLane {s t : SeaState} {x : Nat} (hs : SeaBounded s) (ht : SeaBounded t)
    (hx : x < M) (h : OneLane s t) : OneLane (seaPush s x) (seaPush t x) := by
  obtain ⟨hsa, hsb, hsc, hsd⟩ := hs
  obtain ⟨hta, htb, htc, htd⟩ := ht
  rcases h with ⟨h1, h2, h3, h4⟩ | ⟨h1, h2, h3, h4⟩ | ⟨h1, h2, h3, h4⟩ | ⟨h1, h2, h3, h4⟩
  · right; right; right
    refine ⟨h2, h3, h4, ?_⟩
    intro hEq
    exact h1 (xor_right_cancel (diffuse_inj (xor_lt_M hsa hx) (xor_lt_M hta hx) hEq))
  · left; exact ⟨h2, h3, h4, by show diffuse _ = diffuse _; rw [h1]⟩
  · right; left; exact ⟨h2, h3, h4, by show diffuse _ = diffuse _; rw [h1]⟩
  · right; right; left; exact ⟨h2, h3, h4, by show diffuse _ = diffuse _; rw [h1]⟩

theorem foldl_seaPush_oneLane :
    ∀ (xs : List Nat) (s t : SeaState), SeaBounded s → SeaBounded t → (∀ x ∈ xs, x < M) →
      OneLane s t → OneLane (xs.foldl seaPush s) (xs.foldl seaPush t)
  | [], _, _, _, _, _, h => h
  | x :: xs, s, t, hs, ht, hxs, h =>
    foldl_seaPush_oneLane xs (seaPush s x) (seaPush t x) (seaPush_bounded x hs)
      (seaPush_bounded x ht) (fun z hz => hxs z (List.mem_cons_of_mem x hz))
      (seaPush_oneLane hs ht (hxs x (List.mem_cons_self x xs)) h)

theorem seaFinalize_ne {s t : SeaState} {n : Nat} (hs : SeaBounded s) (ht : SeaBounded t)
    (h : OneLane s t) : seaFinalize s n ≠ seaFinalize t n := by
  obtain ⟨hsa, hsb, hsc, hsd⟩ := hs
  obtain ⟨hta, htb, htc, htd⟩ := ht
  intro hEq
  have hnm : n % M < M := Nat.mod_lt _ M_pos
  have h1 := diffuse_inj
    (xor_lt_M (xor_lt_M (xor_lt_M (xor_lt_M hsa hsb) hsc) hsd) hnm)
    (xor_lt_M (xor_lt_M (xor_lt_M (xor_lt_M hta htb) htc) htd) hnm) hEq
  have h2 := xor_right_cancel h1
  rcases h with ⟨ha, hb, hc, hd⟩ | ⟨ha, hb, hc, hd⟩ | ⟨ha, hb, hc, hd⟩ | ⟨ha, hb, hc, hd⟩
  · rw [hb, hc, hd] at h2
    exact ha (xor_right_cancel (xor_right_cancel (xor_right_cancel h2)))
  · rw [ha, hc, hd] at h2
    exact hb (xor_left_cancel (xor_right_cancel (xor_right_cancel h2)))
  · rw [ha, hb, hd] at h2
    exact hc (xor_left_cancel (xor_right_cancel h2))
  · rw [ha, hb, hc] at h2
    exact hd (xor_left_cancel h2)

theorem readIntLE_append :
    ∀ (l1 l2 : List Nat), readIntLE (l1 ++ l2) = readIntLE l1 + 256 ^ l1.length * readIntLE l2
  | [], l2 => by simp [readIntLE]
  | b :: bs, l2 => by
    show b + 256 * readIntLE (bs ++ l2) =
      (b + 256 * readIntLE bs) + 256 ^ (bs.length + 1) * readIntLE l2
    rw [readIntLE_append bs l2]
    ring

theorem readIntLE_lt {l : List Nat} (h : ∀ b ∈ l, b < 256) : readIntLE l < 256 ^ l.length := by
  induction l with
  | nil => simp [readIntLE]
  | cons b bs ih =>
    have hb : b < 256 := h b (List.mem_cons_self b bs)
    have hr := ih (fun z hz => h z (List.mem_cons_of_mem b hz))
    simp only [readIntLE, List.length_cons]
    calc b + 256 * readIntLE bs < 256 * (readIntLE bs + 1) := by omega
      _ ≤ 256 * 256 ^ bs.length := Nat.mul_le_mul_left 256 hr
      _ = 256 ^ (bs.length + 1) := by ring

theorem pow256_le_M {n : Nat} (h : n ≤ 8) : (256 : Nat) ^ n ≤ M := by
  calc (256 : Nat) ^ n ≤ 256 ^ 8 := Nat.pow_le_pow_right (by norm_num) h
    _ = M := by norm_num [M]

theorem chunks8Fuel_lt :
    ∀ (n : Nat) (l : List Nat), (∀ b ∈ l, b < 256) → ∀ c ∈ chunks8Fuel n l, c < M := by
  intro n
  induction n with
  | zero => intro l _ c hc; cases l <;> simp [chunks8Fuel] at hc
  | succ n ih =>
    intro l hl c hc
    cases l with
    | nil => simp [chunks8Fuel] at hc
    | cons b bs =>
      simp only [chunks8Fuel, List.mem_cons] at hc
      rcases hc with hc | hc
      · subst hc
        have h1 := readIntLE_lt (l := (b :: bs).take 8)
          (fun z hz => hl z (List.mem_of_mem_take hz))
        have h2 : ((b :: bs).take 8).length ≤ 8 := by
          rw [List.length_take]; exact min_le_left _ _
        exact lt_of_lt_of_le h1 (pow256_le_M h2)
      · exact ih _ (fun z hz => hl z (List.mem_of_mem_drop hz)) c hc

theorem chunks8Fuel_cons (n : Nat) (l : List Nat) (hl : l ≠ []) :
    chunks8Fuel (n + 1) l = readIntLE (l.take 8) :: chunks8Fuel n (l.drop 8) := by
  cases l with
  | nil => exact absurd rfl hl
  | cons b bs => rfl

theorem chunks8Fuel_single_diff (n : Nat) :
    ∀ (p : List Nat) (s : List Nat) (x y : Nat), x ≠ y → p.length + 1 + s.length ≤ n →
    ∃ cp c1 c2 cs, chunks8Fuel n (p ++ x :: s) = cp ++ c1 :: cs ∧
      chunks8Fuel n (p ++ y :: s) = cp ++ c2 :: cs ∧ c1 ≠ c2 := by
  induction n with
  | zero => intro p s x y _ hn; exact absurd hn (by omega)
  | succ n ih =>
    intro p s x y hxy hn
    have hxne : p ++ x :: s ≠ [] := by simp
    have hyne : p ++ y :: s ≠ [] := by simp
    by_cases hp : p.length < 8
    · have h8 : 8 - p.length = (7 - p.length) + 1 := by omega
      have hdx : (p ++ x :: s).drop 8 = s.drop (7 - p.length) := by
        rw [List.drop_append_eq_append_drop, List.drop_eq_nil_of_le (by omega), h8,
          List.drop_succ_cons, List.nil_append]
      have hdy : (p ++ y :: s).drop 8 = s.drop (7 - p.length) := by
        rw [List.drop_append_eq_append_drop, List.drop_eq_nil_of_le (by omega), h8,
          List.drop_succ_cons, List.nil_append]
      have htx : (p ++ x :: s).take 8 = p ++ x :: s.take (7 - p.length) := by
        rw [List.take_append_eq_append_take, List.take_of_length_le (by omega), h8,
          List.take_succ_cons]
      have hty : (p ++ y :: s).take 8 = p ++ y :: s.take (7 - p.length) := by
        rw [List.take_append_eq_append_take, List.take_of_length_le (by omega), h8,
          List.take_succ_cons]
      refine ⟨[], readIntLE ((p ++ x :: s).take 8), readIntLE ((p ++ y :: s).take 8),
        chunks8Fuel n (s.drop (7 - p.length)), ?_, ?_, ?_⟩
      · rw [chunks8Fuel_cons n _ hxne, hdx, List.nil_append]
      · rw [chunks8Fuel_cons n _ hyne, hdy, List.nil_append]
      · intro hEq
        rw [htx, hty, readIntLE_append, readIntLE_append] at hEq
        simp only [readIntLE] at hEq
        have h1 := Nat.add_left_cancel hEq
        have h2 := Nat.eq_of_mul_eq_mul_left (Nat.pos_pow_of_pos p.length (by norm_num)) h1
        omega
    · have h0 : 8 - p.length = 0 := by omega
      obtain ⟨cp, c1, c2, cs, h1, h2, h12⟩ :=
        ih (p.drop 8) s x y hxy (by rw [List.length_drop]; omega)
      have htx : (p ++ x :: s).take 8 = p.take 8 := by
        rw [List.take_append_eq_append_take, h0, List.take_zero, List.append_nil]
      have hty : (p ++ y :: s).take 8 = p.take 8 := by
        rw [List.take_append_eq_append_take, h0, List.take_zero, List.append_nil]
      have hdx : (p ++ x :: s).drop 8 = p.drop 8 ++ x :: s := by
        rw [List.drop_append_eq_append_drop, h0, List.drop_zero]
      have hdy : (p ++ y :: s).drop 8 = p.drop 8 ++ y :: s := by
        rw [List.drop_append_eq_append_drop, h0, List.drop_zero]
      refine ⟨readIntLE (p.take 8) :: cp, c1, c2, cs, ?_, ?_, h12⟩
      · rw [chunks8Fuel_cons n _ hxne, htx, hdx, h1, List.cons_append]
      · rw [chunks8Fuel_cons n _ hyne, hty, hdy, h2, List.cons_append]

theorem seeds_bounded : SeaBounded ⟨seedA, seedB, seedC, seedD⟩ := by
  refine ⟨?_, ?_, ?_, ?_⟩ <;> norm_num [seedA, seedB, seedC, seedD, M]

theorem seahash_single_byte_diff (p s : List Nat) (x y : Nat)
    (hx : x < 256) (hy : y < 256) (hp : ∀ b ∈ p, b < 256) (hs : ∀ b ∈ s, b < 256)
    (hxy : x ≠ y) : seahash (p ++ x :: s) ≠ seahash (p ++ y :: s) := by
  have hbx : ∀ b ∈ p ++ x :: s, b < 256 := by
    intro b hb
    rcases List.mem_append.mp hb with hb | hb
    · exact hp b hb
    · rcases List.mem_cons.mp hb with hb | hb
      · omega
      · exact hs b hb
  have hby : ∀ b ∈ p ++ y :: s, b < 256 := by
    intro b hb
    rcases List.mem_append.mp hb with hb | hb
    · exact hp b hb
    · rcases List.mem_cons.mp hb with hb | hb
      · omega
      · exact hs b hb
  have hlx : (p ++ x :: s).length = p.length + 1 + s.length := by simp; omega
  have hly : (p ++ y :: s).length = p.length + 1 + s.length := by simp; omega
  obtain ⟨cp, c1, c2, cs, h1, h2, h12⟩ :=
    chunks8Fuel_single_diff (p.length + 1 + s.length) p s x y hxy le_rfl
  unfold seahash chunks8
  rw [hlx, hly, h1, h2]
  have hc1 : ∀ c ∈ cp ++ c1 :: cs, c < M := by
    rw [← h1, ← hlx]; exact chunks8Fuel_lt _ _ hbx
  have hc2 : ∀ c ∈ cp ++ c2 :: cs, c < M := by
    rw [← h2, ← hly]; exact chunks8Fuel_lt _ _ hby
  rw [List.foldl_append, List.foldl_append]
  set s0 : SeaState := List.foldl seaPush ⟨seedA, seedB, seedC, seedD⟩ cp with hs0
  have hs0b : SeaBounded s0 := foldl_seaPush_bounded cp _ seeds_bounded
  have hone : OneLane (List.foldl seaPush s0 (c1 :: cs)) (List.foldl seaPush s0 (c2 :: cs)) := by
    show OneLane (List.foldl seaPush (seaPush s0 c1) cs) (List.foldl seaPush (seaPush s0 c2) cs)
    apply foldl_seaPush_oneLane cs _ _ (seaPush_bounded c1 hs0b) (seaPush_bounded c2 hs0b)
    · intro z hz
      exact hc1 z (List.mem_append.mpr (Or.inr (List.mem_cons_of_mem c1 hz)))
    · right; right; right
      refine ⟨rfl, rfl, rfl, ?_⟩
      intro hEq
      apply h12
      apply xor_left_cancel (a := s0.a)
      exact diffuse_inj
        (xor_lt_M hs0b.1 (hc1 c1 (List.mem_append.mpr (Or.inr (List.mem_cons_self c1 cs)))))
        (xor_lt_M hs0b.1 (hc2 c2 (List.mem_append.mpr (Or.inr (List.mem_cons_self c2 cs))))) hEq
  exact seaFinalize_ne
    (foldl_seaPush_bounded (c1 :: cs) s0 hs0b)
    (foldl_seaPush_bounded (c2 :: cs) s0 hs0b) hone

theorem b64chars_length : b64chars.length = 64 := rfl

theorem b64char_ne_fin : ∀ i : Fin 64, b64char i.val ≠ '.' ∧ b64char i.val ≠ '=' := by decide

theorem b64char_ne_dot (n : Nat) : b64char n ≠ '.' := by
  by_cases h : n < 64
  · exact (b64char_ne_fin ⟨n, h⟩).1
  · unfold b64char
    rw [List.getD_eq_default]
    · decide
    · rw [b64chars_length]; omega

theorem b64char_ne_pad (n : Nat) : b64char n ≠ '=' := by
  by_cases h : n < 64
  · exact (b64char_ne_fin ⟨n, h⟩).2
  · unfold b64char
    rw [List.getD_eq_default]
    · decide
    · rw [b64chars_length]; omega

theorem b64index_b64char_fin : ∀ i : Fin 64, b64index (b64char i.val) = some i.val := by decide

theorem b64index_b64char {n : Nat} (h : n < 64) : b64index (b64char n) = some n :=
  b64index_b64char_fin ⟨n, h⟩

theorem base64encode_no_dot : ∀ (bs : List Nat), '.' ∉ base64encode bs
  | [] => by simp [base64encode]
  | [b0] => by
    intro hmem
    simp only [base64encode, List.mem_cons, List.not_mem_nil, or_false] at hmem
    rcases hmem with h | h | h | h
    · exact b64char_ne_dot _ h.symm
    · exact b64char_ne_dot _ h.symm
    · exact absurd h (by decide)
    · exact absurd h (by decide)
  | [b0, b1] => by
    intro hmem
    simp only [base64encode, List.mem_cons, List.not_mem_nil, or_false] at hmem
    rcases hmem with h | h | h | h
    · exact b64char_ne_dot _ h.symm
    · exact b64char_ne_dot _ h.symm
    · exact b64char_ne_dot _ h.symm
    · exact absurd h (by decide)
  | b0 :: b1 :: b2 :: rest => by
    intro hmem
    simp only [base64encode, List.mem_cons] at hmem
    rcases hmem with h | h | h | h | h
    · exact b64char_ne_dot _ h.symm
    · exact b64char_ne_dot _ h.symm
    · exact b64char_ne_dot _ h.symm
    · exact b64char_ne_dot _ h.symm
    · exact base64encode_no_dot rest h

theorem base64decode_full_group (x0 x1 x2 : Nat) (rest : List Char) (bs : List Nat)
    (hx0 : x0 < 256) (hx1 : x1 < 256) (hx2 : x2 < 256)
    (hrest : base64decode rest = some bs) :
    base64decode (b64char (x0 / 4) :: b64char (x0 % 4 * 16 + x1 / 16) ::
      b64char (x1 % 16 * 4 + x2 / 64) :: b64char (x2 % 64) :: rest) =
      some (x0 :: x1 :: x2 :: bs) := by
  have e0 : b64index (b64char (x0 / 4)) = some (x0 / 4) := b64index_b64char (by omega)
  have e1 : b64index (b64char (x0 % 4 * 16 + x1 / 16)) = some (x0 % 4 * 16 + x1 / 16) :=
    b64index_b64char (by omega)
  have e2 : b64index (b64char (x1 % 16 * 4 + x2 / 64)) = some (x1 % 16 * 4 + x2 / 64) :=
    b64index_b64char (by omega)
  have e3 : b64index (b64char (x2 % 64)) = some (x2 % 64) := b64index_b64char (by omega)
  simp [base64decode, e0, e1, e2, e3, b64char_ne_pad, hrest]
  omega

theorem base64decode_pad_group (x0 x1 : Nat) (hx0 : x0 < 256) (hx1 : x1 < 256) :
    base64decode (b64char (x0 / 4) :: b64char (x0 % 4 * 16 + x1 / 16) ::
      b64char (x1 % 16 * 4) :: '=' :: []) = some (x0 :: x1 :: []) := by
  have e0 : b64index (b64char (x0 / 4)) = some (x0 / 4) := b64index_b64char (by omega)
  have e1 : b64index (b64char (x0 % 4 * 16 + x1 / 16)) = some (x0 % 4 * 16 + x1 / 16) :=
    b64index_b64char (by omega)
  have e2 : b64index (b64char (x1 % 16 * 4)) = some (x1 % 16 * 4) := b64index_b64char (by omega)
  have e4 : (x1 % 16 * 4) % 4 = 0 := by omega
  simp [base64decode, e0, e1, e2, e4, b64char_ne_pad]
  omega

theorem base64decode_encode8 (b0 b1 b2 b3 b4 b5 b6 b7 : Nat)
    (h0 : b0 < 256) (h1 : b1 < 256) (h2 : b2 < 256) (h3 : b3 < 256)
    (h4 : b4 < 256) (h5 : b5 < 256) (h6 : b6 < 256) (h7 : b7 < 256) :
    base64decode (base64encode [b0, b1, b2, b3, b4, b5, b6, b7]) =
      some [b0, b1, b2, b3, b4, b5, b6, b7] := by
  have henc : base64encode [b0, b1, b2, b3, b4, b5, b6, b7] =
      b64char (b0 / 4) :: b64char (b0 % 4 * 16 + b1 / 16) :: b64char (b1 % 16 * 4 + b2 / 64) ::
        b64char (b2 % 64) :: (b64char (b3 / 4) :: b64char (b3 % 4 * 16 + b4 / 16) ::
        b64char (b4 % 16 * 4 + b5 / 64) :: b64char (b5 % 64) :: (b64char (b6 / 4) ::
        b64char (b6 % 4 * 16 + b7 / 16) :: b64char (b7 % 16 * 4) :: '=' :: [])) := rfl
  rw [henc, base64decode_full_group _ _ _ _ _ h0 h1 h2
    (base64decode_full_group _ _ _ _ _ h3 h4 h5 (base64decode_pad_group _ _ h6 h7))]

theorem u64ToLeBytes_length (h : Nat) : (u64ToLeBytes h).length = 8 := rfl

theorem readIntLE_u64ToLeBytes {h : Nat} (hh : h < M) : readIntLE (u64ToLeBytes h) = h := by
  have hM : h < 18446744073709551616 := hh
  simp only [u64ToLeBytes, readIntLE]
  omega

theorem hash_file_lt (file : List Nat) : hash_file file < M := by
  unfold hash_file seahash seaFinalize
  exact diffuse_lt _

theorem splitOnceDot_no_dot : ∀ {l st ex : List Char}, splitOnceDot l = some (st, ex) → '.' ∉ st
  | [], st, ex, h => by simp [splitOnceDot] at h
  | c :: rest, st, ex, h => by
    by_cases hc : c = '.'
    · subst hc
      simp only [splitOnceDot, if_pos] at h
      obtain ⟨h1, _⟩ := Prod.mk.injEq .. ▸ Option.some.inj h
      rw [← h1]
      simp
    · simp only [splitOnceDot, if_neg hc] at h
      cases hsp : splitOnceDot rest with
      | none => rw [hsp] at h; simp at h
      | some pr =>
        obtain ⟨l1, r1⟩ := pr
        rw [hsp] at h
        simp only [Option.some.injEq, Prod.mk.injEq] at h
        rw [← h.1]
        intro hmem
        rcases List.mem_cons.mp hmem with hd | hd
        · exact hc hd.symm
        · exact splitOnceDot_no_dot hsp hd

theorem splitOnceDot_append : ∀ (u v : List Char), '.' ∉ u → splitOnceDot (u ++ '.' :: v) = some (u, v)
  | [], v, _ => by simp [splitOnceDot]
  | c :: u, v, h => by
    have hc : ¬ c = '.' := fun hEq => h (hEq ▸ List.mem_cons_self c u)
    have hrec := splitOnceDot_append u v (fun hm => h (List.mem_cons_of_mem c hm))
    simp [splitOnceDot, hc, hrec]

theorem parse_name_aux (hsh : Nat) (hlt : hsh < M) (st ex : List Char) (hnd : '.' ∉ st) :
    parse_filename (st ++ '.' :: (base64encode (u64ToLeBytes hsh) ++ '.' :: ex)) =
      some (hsh, []) := by
  have hdec : base64decode (base64encode (u64ToLeBytes hsh)) = some (u64ToLeBytes hsh) := by
    exact base64decode_encode8 _ _ _ _ _ _ _ _ (by omega) (by omega) (by omega) (by omega)
      (by omega) (by omega) (by omega) (by omega)
  have hs1 := splitOnceDot_append st (base64encode (u64ToLeBytes hsh) ++ '.' :: ex) hnd
  have hs2 := splitOnceDot_append (base64encode (u64ToLeBytes hsh)) ex (base64encode_no_dot _)
  simp [parse_filename, hs1, hs2, hdec, u64ToLeBytes_length, readIntLE_u64ToLeBytes hlt]

theorem new_filename_eq (file : List Nat) (filename st ex : List Char)
    (h : splitOnceDot filename = some (st, ex)) :
    new_filename file filename =
      some (hash_file file,
        st ++ '.' :: (base64encode (u64ToLeBytes (hash_file file)) ++ '.' :: ex)) := by
  unfold new_filename
  rw [h]

/-- C1: for every byte payload and every file name containing a dot, the
content-addressed name computed by `new_filename` is exactly
`{stem}.{base64(hash_le_bytes)}.{ext}` with `hash = hash_file bytes`, the stem
the part of the name before its first dot and the extension the part after
it; the result is a pure function of the payload and the name, so two calls
with identical bytes and the same file name return the same name. -/
theorem new_filename_scheme (file : List Nat) (filename st ex : List Char)
    (h : splitOnceDot filename = some (st, ex)) :
    new_filename file filename =
      some (hash_file file,
        st ++ '.' :: (base64encode (u64ToLeBytes (hash_file file)) ++ '.' :: ex)) :=
  new_filename_eq file filename st ex h

/-- Witness for C1 at payload `[1, 2, 3]` and file name `logo.png`. -/
theorem new_filename_scheme_witness :
    splitOnceDot ("logo.png".toList) = some ("logo".toList, "png".toList) ∧
      new_filename [1, 2, 3] ("logo.png".toList) =
        some (hash_file [1, 2, 3],
          "logo".toList ++ '.' ::
            (base64encode (u64ToLeBytes (hash_file [1, 2, 3])) ++ '.' :: "png".toList)) :=
  ⟨by decide, new_filename_scheme [1, 2, 3] ("logo.png".toList) ("logo".toList) ("png".toList)
    (by decide)⟩

theorem parse_name_of_new_aux (file : List Nat) (st ex : List Char) (hnd : '.' ∉ st) :
    parse_filename
        (st ++ '.' :: (base64encode (u64ToLeBytes (hash_file file)) ++ '.' :: ex)) =
      some (hash_file file, []) :=
  parse_name_aux (hash_file file) (hash_file_lt file) st ex hnd

/-- C10: parsing the name produced by `new_filename` returns exactly the
64-bit content hash `hash_file` computed from the payload. -/
theorem parse_filename_roundtrip (file : List Nat) (filename : List Char) (r : Nat × List Char)
    (hnf : new_filename file filename = some r) :
    parse_filename r.2 = some (hash_file file, []) := by
  unfold new_filename at hnf
  cases hsp : splitOnceDot filename with
  | none => rw [hsp] at hnf; simp at hnf
  | some pr =>
    obtain ⟨st, ex⟩ := pr
    rw [hsp] at hnf
    simp only [Option.some.injEq] at hnf
    rw [← hnf]
    exact parse_name_of_new_aux file st ex (splitOnceDot_no_dot hsp)

/-- Witness for C10 at payload `[1, 2, 3]` and file name `logo.png`. -/
theorem parse_filename_roundtrip_witness :
    new_filename [1, 2, 3] ("logo.png".toList) =
        some ((new_filename [1, 2, 3] ("logo.png".toList)).getD (0, [])) ∧
      parse_filename ((new_filename [1, 2, 3] ("logo.png".toList)).getD (0, [])).2 =
        some (hash_file [1, 2, 3], []) :=
  ⟨by decide, parse_filename_roundtrip [1, 2, 3] ("logo.png".toList) _ (by decide)⟩

/-- C2: two payloads differing in a single byte produce different rewritten
asset names under `new_filename` with the same original file name. -/
theorem new_filename_single_byte_change (p s : List Nat) (x y : Nat) (filename : List Char)
    (hx : x < 256) (hy : y < 256) (hp : ∀ b ∈ p, b < 256) (hs : ∀ b ∈ s, b < 256)
    (hxy : x ≠ y) (hdot : (splitOnceDot filename).isSome) :
    (new_filename (p ++ x :: s) filename).map Prod.snd ≠
      (new_filename (p ++ y :: s) filename).map Prod.snd := by
  obtain ⟨pr, hse⟩ := Option.isSome_iff_exists.mp hdot
  obtain ⟨st, ex⟩ := pr
  rw [new_filename_eq _ _ _ _ hse, new_filename_eq _ _ _ _ hse]
  simp only [Option.map_some']
  intro hEq
  have hnames := Option.some.inj hEq
  have h1 := parse_name_aux (hash_file (p ++ x :: s)) (hash_file_lt _) st ex
    (splitOnceDot_no_dot hse)
  have h2 := parse_name_aux (hash_file (p ++ y :: s)) (hash_file_lt _) st ex
    (splitOnceDot_no_dot hse)
  rw [hnames, h2] at h1
  have h3 := Option.some.inj h1
  have h4 : hash_file (p ++ x :: s) = hash_file (p ++ y :: s) := (congrArg Prod.fst h3).symm
  exact seahash_single_byte_diff p s x y hx hy hp hs hxy h4

/-- Witness for C2 at the payloads `[0]` and `[1]` and file name `a.b`. -/
theorem new_filename_single_byte_change_witness :
    (splitOnceDot ("a.b".toList)).isSome = true ∧
      (new_filename ([] ++ 0 :: []) ("a.b".toList)).map Prod.snd ≠
        (new_filename ([] ++ 1 :: []) ("a.b".toList)).map Prod.snd :=
  ⟨by decide, new_filename_single_byte_change [] [] 0 1 ("a.b".toList) (by decide) (by decide)
    (by decide) (by decide) (by decide) (by decide)⟩

/-- C4 (code bug): the prune loop of `build_site` never terminates when the
root node carries no data: the post-order scan always lists the dataless
root, which is never removed, so the scan result is never empty and the
`break` is never reached — for every fuel the loop is still running.  The
claim that the pass terminates with a fixed point for every tree therefore
fails on the code. -/
theorem prune_loop_diverges_on_dataless_root :
    ∀ (n : Nat) (cs : List FsNode), pruneLoop n (FsNode.mk false cs) = none := by
  intro n
  induction n with
  | zero => intro cs; rfl
  | succ n ih =>
    intro cs
    have hbad : hasBadNode (FsNode.mk false cs) = true := by simp [hasBadNode]
    have hstep : pruneStep (FsNode.mk false cs) = FsNode.mk false (pruneChildren cs) := by
      simp [pruneStep]
    simp only [pruneLoop, hbad, if_true, hstep]
    exact ih (pruneChildren cs)

/-- C5: when the prune loop does complete (returns a tree within the fuel),
the scan found no dataless node, so in particular every surviving non-root
node has its data present. -/
theorem prune_result_nodes_have_data :
    ∀ (n : Nat) (t t' : FsNode), pruneLoop n t = some t' →
      hasBadList (FsNode.children t') = false := by
  intro n
  induction n with
  | zero => intro t t' h; simp [pruneLoop] at h
  | succ n ih =>
    intro t t' h
    by_cases hbad : hasBadNode t = true
    · simp only [pruneLoop, hbad, if_true] at h
      exact ih _ _ h
    · rw [pruneLoop, if_neg hbad] at h
      have ht := Option.some.inj h
      rw [← ht]
      cases t with
      | mk d cs =>
        have h2 : hasBadList cs = false := by
          cases hcs : hasBadList cs with
          | false => rfl
          | true => exact absurd (by simp [hasBadNode, hcs]) hbad
        simpa [FsNode.children] using h2

/-- Witness for C5: a root with one dataless child prunes to the bare root,
and the result has no non-root node without data. -/
theorem prune_result_nodes_have_data_witness :
    pruneLoop 2 (FsNode.mk true [FsNode.mk false []]) = some (FsNode.mk true []) ∧
      hasBadList (FsNode.children (FsNode.mk true [])) = false :=
  ⟨by rfl, prune_result_nodes_have_data 2 (FsNode.mk true [FsNode.mk false []])
    (FsNode.mk true []) (by rfl)⟩

/-- C3 (code bug): in the second pass of `build_site`, a front matter that
fails to parse as `ConfigMeta` aborts the whole pass (and with it the build)
through the `?` at build.rs:529 instead of being skipped with a warning: with
three processed directories whose middle one carries malformed front matter,
the pass returns the error and the third document is never reached. -/
theorem config_meta_parse_failure_aborts_build :
    pass2Round 1
      [⟨"static".toList, 1, true, some (some (Except.ok ⟨some ⟨"Static", []⟩⟩))⟩,
       ⟨"admin".toList, 1, true, some (some (Except.error "invalid front matter TOML"))⟩,
       ⟨"user".toList, 1, true, some (some (Except.ok ⟨some ⟨"User", []⟩⟩))⟩] [] =
      Except.error "invalid front matter TOML" := by
  rfl

/-- C7 (code bug): on the spec's scenario — `blog/index.md` carrying a
category config and `blog/rust/index.md` carrying a subcategory config — the
second pass of `build_site` produces an empty category map, because the
walker's inverted `filter_entry` (build.rs:284-288) yields only entries named
exactly a reserved name, so neither `blog` nor `rust` is ever visited; and
the source has no subcategory map at all (the depth-2 branch at
build.rs:538-546 is an empty block). -/
theorem category_scenario_maps_empty :
    secondPass
      [⟨"blog".toList, 1, true, some (some (Except.ok ⟨some ⟨"Blog", []⟩⟩))⟩,
       ⟨"rust".toList, 2, true, some (some (Except.ok ⟨none⟩))⟩] =
      Except.ok [] := by
  rfl

/-- C6 (code bug): a directory named `en` parses as a well-formed language
tag, yet the walk silently skips it instead of failing the build, because
the `filter_entry` predicate (build.rs:284-288) keeps only entries whose
name is a reserved name; a directory name containing the reserved space
character is likewise silently skipped; only reserved-named directories
reach the fatal checks (and then fail as language tags, since every reserved
name is 2-8 ASCII letters). -/
theorem lang_tag_dir_silently_skipped :
    wellFormedLangTag ("en".toList) = true ∧
      dirStep ("en".toList) = DirOutcome.skipped ∧
      (("foo bar".toList).any (fun c => RESERVED_CHARS.contains c)) = true ∧
      dirStep ("foo bar".toList) = DirOutcome.skipped ∧
      dirStep ("static".toList) = DirOutcome.fatalLangTag := by
  refine ⟨by rfl, by rfl, by rfl, by rfl, by rfl⟩

theorem tocKeptLines_fenced_all_dropped :
    ∀ (tag : List Char) (ls : List (List Char)), (∀ l ∈ ls, tag.isPrefixOf l = false) →
      tocKeptLines (some tag) ls = []
  | _, [], _ => rfl
  | tag, l :: ls, h => by
    simp only [tocKeptLines, h l (List.mem_cons_self l ls), Bool.false_eq_true, if_false]
    exact tocKeptLines_fenced_all_dropped tag ls (fun z hz => h z (List.mem_cons_of_mem l hz))

theorem tocKeptLines_append :
    ∀ (xs ys : List (List Char)) (fence : Option (List Char)),
      tocKeptLines fence (xs ++ ys) =
        tocKeptLines fence xs ++ tocKeptLines (tocFence fence xs) ys
  | [], ys, fence => by simp [tocKeptLines, tocFence]
  | l :: xs, ys, fence => by
    cases fence with
    | some tag =>
      by_cases h : tag.isPrefixOf l
      · simp [tocKeptLines, tocFence, h, tocKeptLines_append xs ys none]
      · simp [tocKeptLines, tocFence, h, tocKeptLines_append xs ys (some tag)]
    | none =>
      by_cases h1 : fenceBackticks.isPrefixOf l
      · simp [tocKeptLines, tocFence, h1, tocKeptLines_append xs ys (some fenceBackticks)]
      · by_cases h2 : fenceTildes.isPrefixOf l
        · simp [tocKeptLines, tocFence, h1, h2, tocKeptLines_append xs ys (some fenceTildes)]
        · simp [tocKeptLines, tocFence, h1, h2, tocKeptLines_append xs ys none]

/-- C8: when the line filter reaches a line opening a fence (three backticks
or three tildes) outside any fence, and no later line starts with that
fence's tag (the fence is never closed before end of input), no line after
the opener survives into the heading candidates: the kept lines of the whole
body are exactly the kept lines of the part before the opener. -/
theorem toc_open_fence_suppresses_headings (pre post : List (List Char)) (op tag : List Char)
    (htag : tag = fenceBackticks ∨ tag = fenceTildes)
    (hpre : tocFence none pre = none)
    (hop : tag.isPrefixOf op = true)
    (hpost : ∀ l ∈ post, tag.isPrefixOf l = false) :
    tocKeptLines none (pre ++ op :: post) = tocKeptLines none pre := by
  rw [tocKeptLines_append, hpre]
  have hdrop : tocKeptLines none (op :: post) = [] := by
    rcases htag with rfl | rfl
    · simp only [tocKeptLines, hop, if_true]
      exact tocKeptLines_fenced_all_dropped _ post hpost
    · have hbt : fenceBackticks.isPrefixOf op = false := by
        obtain ⟨t, ht⟩ := List.isPrefixOf_iff_prefix.mp hop
        rw [← ht]
        rfl
      simp only [tocKeptLines, hbt, Bool.false_eq_true, if_false, hop, if_true]
      exact tocKeptLines_fenced_all_dropped _ post hpost
  rw [hdrop, List.append_nil]

/-- Witness for C8: a body opening a code fence that never closes keeps no
heading line from inside it. -/
theorem toc_open_fence_suppresses_headings_witness :
    tocFence none [] = none ∧
      tocKeptLines none ([] ++ ("```rust".toList) :: ["# heading".toList]) =
        tocKeptLines none [] :=
  ⟨rfl, toc_open_fence_suppresses_headings [] ["# heading".toList] ("```rust".toList)
    fenceBackticks (Or.inl rfl) rfl (by decide) (by decide)⟩

theorem observedSeq_get :
    ∀ (trace : List Bool) (t0 i : Nat), i < trace.length →
      (observedSeq t0 trace).get? i = some (t0 + (trace.take i).count true)
  | [], _, i, h => by simp at h
  | ok :: rest, t0, 0, _ => by simp [observedSeq]
  | ok :: rest, t0, i + 1, h => by
    have hr := observedSeq_get rest (hookStep t0 ok) i
      (Nat.lt_of_succ_lt_succ (by simpa using h))
    simp only [observedSeq, List.get?_cons_succ]
    rw [hr]
    cases ok with
    | false => simp [hookStep, List.take_succ_cons, List.count_cons]
    | true =>
      simp [hookStep, List.take_succ_cons, List.count_cons]
      omega

/-- C9 counterexample: the claim that the counter observed on the n-th
invocation is always exactly n is false on the code, because a call whose
script errors returns before `fetch_add`: after a failed invocation and a
successful one, the second invocation (n = 1) observes 0. -/
theorem hook_counter_claim_false :
    ¬ ∀ (trace : List Bool) (i : Nat), i < trace.length →
        (observedSeq 0 trace).get? i = some i := by
  intro hclaim
  have h2 := hclaim [false, true] 1 (by decide)
  exact absurd h2 (by decide)

/-- C9 (amended): the counter value a hook's script observes on its n-th
invocation equals the number of earlier invocations whose scripted call
succeeded: the counter is read before the call and incremented by one only
after a successful call, and it is a field of that one hook's registration
record, hence local to the named hook. -/
theorem hook_counter_counts_successes (trace : List Bool) (i : Nat) (h : i < trace.length) :
    (observedSeq 0 trace).get? i = some ((trace.take i).count true) := by
  have h2 := observedSeq_get trace 0 i h
  simpa using h2

/-- Witness for C9's amended theorem on the trace success, failure, success:
the third invocation observes 1. -/
theorem hook_counter_counts_successes_witness :
    2 < ([true, false, true] : List Bool).length ∧
      (observedSeq 0 [true, false, true]).get? 2 =
        some (([true, false, true].take 2).count true) :=
  ⟨by decide, hook_counter_counts_successes [true, false, true] 2 (by decide)⟩
